import Mathlib

/-!
# Verification of the ArkPRTS asset pipeline

A shallow embedding of the asset acquisition and decoding pipeline of the
`arkprts` library (module `arkprts/assets/bundle.py`, plus the table
accessors of `arkprts/assets/base.py` and the dot-accessible wrappers of
`arkprts/models/base.py`).

Conventions of the embedding:
* byte strings are `List Nat` (each element a byte value);
* Python dicts are association lists; where the source builds a dict by
  comprehension, lookup follows the last occurrence of a key (later
  assignments overwrite earlier ones);
* fallible code returns `Option`/`Except`;
* the AES block cipher (an external library primitive, keyed by the fixed
  mask key) is an abstract parameter `D : List Nat → List Nat` mapping a
  16-byte ciphertext block to its plaintext block; the CBC chaining, the
  IV derivation and the padding handling — the code that actually lives in
  `decrypt_aes_text` and its library contract — are modelled explicitly.
-/

set_option autoImplicit false

namespace ArkPrts

/-! ## Manifest differ (`get_outdated_hashes`, bundle.py:314-317) -/

/-- One record of a hot-update manifest: `{"name": ..., "hash": ...}`. -/
structure AbInfo where
  name : String
  hash : String
deriving DecidableEq, Repr

/-- A manifest is the `"abInfos"` array: an ordered list of records. -/
def Manifest := List AbInfo

/-- The dict `{info["name"]: info["hash"] for info in hot_update_before["abInfos"]}`:
lookup returns the hash of the *last* record with the given name (later
comprehension entries overwrite earlier ones), `none` when absent. -/
def beforeHashGet (before : List AbInfo) (n : String) : Option String :=
  (before.reverse.find? (fun i => i.name == n)).map (fun i => i.hash)

/-- `get_outdated_hashes(hot_update_now, hot_update_before)`:
`[info["name"] for info in now if info["hash"] != before_hashes.get(info["name"])]`. -/
def getOutdatedHashes (now before : List AbInfo) : List String :=
  (now.filter (fun i => !(some i.hash == beforeHashGet before i.name))).map (fun i => i.name)

end ArkPrts

namespace ArkPrts

theorem getOutdatedHashes_mem (now before : List AbInfo) (n : String) :
    n ∈ getOutdatedHashes now before ↔
      ∃ i ∈ now, i.name = n ∧ beforeHashGet before i.name ≠ some i.hash := by
  simp only [getOutdatedHashes, List.mem_map, List.mem_filter]
  constructor
  · rintro ⟨i, ⟨hi, hne⟩, rfl⟩
    rw [Bool.not_eq_true', beq_eq_false_iff_ne] at hne
    exact ⟨i, hi, rfl, fun h => hne h.symm⟩
  · rintro ⟨i, hi, rfl, hne⟩
    refine ⟨i, ⟨hi, ?_⟩, rfl⟩
    rw [Bool.not_eq_true', beq_eq_false_iff_ne]
    exact fun h => hne h.symm

theorem getOutdatedHashes_nil_iff (now before : List AbInfo) :
    getOutdatedHashes now before = [] ↔
      ∀ i ∈ now, beforeHashGet before i.name = some i.hash := by
  simp only [getOutdatedHashes, List.map_eq_nil_iff, List.filter_eq_nil_iff]
  constructor
  · intro h i hi
    have h2 := h i hi
    rw [Bool.not_eq_true', beq_eq_false_iff_ne] at h2
    by_contra hc
    exact h2 (fun he => hc he.symm)
  · intro h i hi
    rw [Bool.not_eq_true', beq_eq_false_iff_ne]
    intro hne
    exact hne (h i hi).symm

/-- C1: `get_outdated_hashes(current, previous)` returns exactly the names of
records in `current` whose hash differs from — or is absent from — the dict
built from `previous`; a name is returned only if it occurs in `current`
(names present only in `previous` are never returned); and the result is
empty iff every record of `current` has its identical hash in `previous`. -/
theorem getOutdatedHashes_spec (current previous : List AbInfo) :
    (∀ n : String, n ∈ getOutdatedHashes current previous ↔
        ∃ i ∈ current, i.name = n ∧ beforeHashGet previous i.name ≠ some i.hash) ∧
    (∀ n ∈ getOutdatedHashes current previous, ∃ i ∈ current, i.name = n) ∧
    (getOutdatedHashes current previous = [] ↔
        ∀ i ∈ current, beforeHashGet previous i.name = some i.hash) := by
  refine ⟨fun n => getOutdatedHashes_mem current previous n, ?_, getOutdatedHashes_nil_iff current previous⟩
  intro n hn
  obtain ⟨i, hi, hname, -⟩ := (getOutdatedHashes_mem current previous n).1 hn
  exact ⟨i, hi, hname⟩

/-- Witness for C1 at a concrete pair of manifests: the name returned for
a previous-less diff does occur in the current manifest. -/
theorem getOutdatedHashes_spec_witness :
    ∃ i ∈ [AbInfo.mk "a.ab" "h2"], i.name = "a.ab" :=
  (getOutdatedHashes_spec [AbInfo.mk "a.ab" "h2"] []).2.1 "a.ab" (by decide)

/-! ## `BundleAssets.update_assets` orchestration (bundle.py:417-470)

The glob matcher `fnmatch.fnmatch(name, allow)` is a standard-library
primitive; it enters the embedding as an abstract predicate
`matchesAllow : String → Bool`.  The phase structure of the method is
modelled faithfully:

1. `hot_update_list = await self._get_hot_update_list(server)` — fallible
   (`Except`); a failure propagates out of `update_assets`;
2. `requested_names` — the allow-pattern filter, then (when a previous
   manifest exists on disk and `force` is not set) the intersection with
   `get_outdated_hashes`;
3. `datas = await asyncio.gather(...)` — each download is fallible and a
   failing download propagates out of the whole call;
4. per-bundle parse/save, each wrapped in `try/except` (a failure is
   logged and the loop continues);
5. the fresh manifest is written to disk unconditionally at the end. -/

/-- Lines 437-442: the allow-filter applied to the fresh manifest, then the
hash diff (skipped when `force` is set or no previous manifest exists). -/
def requestedNames (matchesAllow : String → Bool) (hotUpdateList : List AbInfo)
    (old : Option (List AbInfo)) (force : Bool) : List String :=
  let requested := (hotUpdateList.filter (fun i => matchesAllow i.name)).map (fun i => i.name)
  match old, force with
  | some oldList, false =>
      let outdated := getOutdatedHashes hotUpdateList oldList
      requested.filter (fun n => n ∈ outdated)
  | _, _ => requested

/-- The observable outcome of one `update_assets` call that did not raise. -/
structure SyncResult where
  /-- the names passed to `_download_unity_file`, in order -/
  downloaded : List String
  /-- the per-bundle parse outcomes; errors are logged, not raised -/
  parseOutcomes : List (Except String (List (String × List Nat)))
  /-- the manifest written to `hot_update_list.json` at the end -/
  savedManifest : List AbInfo
deriving Repr

/-- Lines 436-470 of `update_assets` for a single server: fetch the fresh
manifest, filter and diff, download every requested bundle (`asyncio.gather`
propagates a download failure), parse each downloaded bundle inside
`try/except`, and finally write the fresh manifest to disk. -/
def updateAssetsModel (matchesAllow : String → Bool)
    (fetchManifest : Except String (List AbInfo))
    (old : Option (List AbInfo)) (force : Bool)
    (download : String → Except String (List Nat))
    (parse : List Nat → Except String (List (String × List Nat))) :
    Except String SyncResult := do
  let hot ← fetchManifest
  let names := requestedNames matchesAllow hot old force
  let datas ← names.mapM download
  let outcomes := datas.map parse
  pure { downloaded := names, parseOutcomes := outcomes, savedManifest := hot }

theorem requestedNames_subset_filtered (matchesAllow : String → Bool)
    (hot : List AbInfo) (old : Option (List AbInfo)) (force : Bool) (n : String) :
    n ∈ requestedNames matchesAllow hot old force →
      n ∈ (hot.filter (fun i => matchesAllow i.name)).map (fun i => i.name) := by
  unfold requestedNames
  match old, force with
  | some oldList, false => exact fun h => (List.mem_filter.1 h).1
  | some oldList, true => exact fun h => h
  | none, b => exact fun h => h

/-- C2: the allow-pattern filter is applied before diffing, so a manifest
name rejected by the pattern is never among the downloaded names, whatever
the hashes, the previous manifest and the force flag are; and when `force`
is set or no previous manifest exists on disk, the requested names are
exactly all pattern-accepted names of the fresh manifest. -/
theorem updateAssets_filter_spec (matchesAllow : String → Bool)
    (hot : List AbInfo) (old : Option (List AbInfo)) (force : Bool) :
    (∀ n : String, matchesAllow n = false →
        n ∉ requestedNames matchesAllow hot old force) ∧
    (force = true ∨ old = none →
        requestedNames matchesAllow hot old force =
          (hot.filter (fun i => matchesAllow i.name)).map (fun i => i.name)) ∧
    (∀ download parse r,
        updateAssetsModel matchesAllow (Except.ok hot) old force download parse = Except.ok r →
        r.downloaded = requestedNames matchesAllow hot old force) := by
  refine ⟨?_, ?_, ?_⟩
  · intro n hn hmem
    obtain ⟨i, hi, rfl⟩ :=
      List.mem_map.1 (requestedNames_subset_filtered matchesAllow hot old force n hmem)
    have h2 : matchesAllow i.name = true := (List.mem_filter.1 hi).2
    rw [hn] at h2
    exact Bool.false_ne_true h2
  · rintro (rfl | rfl)
    · unfold requestedNames
      match old with
      | some oldList => rfl
      | none => rfl
    · rfl
  · intro download parse r h
    unfold updateAssetsModel at h
    simp only [bind, Except.bind] at h
    revert h
    match hm : (requestedNames matchesAllow hot old force).mapM download with
    | Except.error e => intro h; cases h
    | Except.ok datas => intro h; cases h; rfl

/-- Witness for C2 at a concrete pattern and manifest: the name rejected by
the filter is not requested even though its hash changed, and with
`force = true` all accepted names are requested. -/
theorem updateAssets_filter_spec_witness :
    ("other/a.ab" ∉ requestedNames (fun n => n == "gamedata/b.ab") [⟨"other/a.ab", "h2"⟩, ⟨"gamedata/b.ab", "h3"⟩] (some [⟨"other/a.ab", "h1"⟩]) false) ∧
    (requestedNames (fun n => n == "gamedata/b.ab") [⟨"other/a.ab", "h2"⟩, ⟨"gamedata/b.ab", "h3"⟩] (some [⟨"other/a.ab", "h1"⟩]) true = ["gamedata/b.ab"]) := by
  constructor
  · exact (updateAssets_filter_spec (fun n => n == "gamedata/b.ab")
      [⟨"other/a.ab", "h2"⟩, ⟨"gamedata/b.ab", "h3"⟩] (some [⟨"other/a.ab", "h1"⟩]) false).1
      "other/a.ab" (by decide)
  · rw [(updateAssets_filter_spec (fun n => n == "gamedata/b.ab")
      [⟨"other/a.ab", "h2"⟩, ⟨"gamedata/b.ab", "h3"⟩] (some [⟨"other/a.ab", "h1"⟩]) true).2.1
      (Or.inl rfl)]
    decide

theorem mapM_ok_of_forall_ok {α β : Type} (download : α → Except String β) :
    ∀ names : List α, (∀ n ∈ names, ∃ b, download n = Except.ok b) →
      ∃ datas, names.mapM download = Except.ok datas
  | [], _ => ⟨[], rfl⟩
  | n :: ns, h => by
    obtain ⟨b, hb⟩ := h n (List.mem_cons_self n ns)
    obtain ⟨ds, hds⟩ := mapM_ok_of_forall_ok download ns (fun m hm => h m (List.mem_cons_of_mem n hm))
    refine ⟨b :: ds, ?_⟩
    rw [List.mapM_cons, hb, hds]
    rfl

/-- C8 (amended): a manifest-retrieval failure propagates out of
`update_assets`; when the manifest fetch and every requested download
succeed, the call succeeds no matter what the per-bundle parse step does —
every downloaded bundle gets a (possibly failing, merely logged) parse
outcome, and the fresh manifest is written at the end even when some of
those outcomes are errors.  (A failing *download*, by contrast, also
propagates — see the counterexample.) -/
theorem updateAssets_failure_isolation (matchesAllow : String → Bool)
    (hot : List AbInfo) (old : Option (List AbInfo)) (force : Bool)
    (download : String → Except String (List Nat))
    (parse : List Nat → Except String (List (String × List Nat))) :
    (∀ e, updateAssetsModel matchesAllow (Except.error e) old force download parse =
        Except.error e) ∧
    ((∀ n ∈ requestedNames matchesAllow hot old force, ∃ b, download n = Except.ok b) →
      ∃ r, updateAssetsModel matchesAllow (Except.ok hot) old force download parse =
            Except.ok r ∧
        r.savedManifest = hot ∧
        r.downloaded = requestedNames matchesAllow hot old force ∧
        ∃ datas, (requestedNames matchesAllow hot old force).mapM download = Except.ok datas ∧
          r.parseOutcomes = datas.map parse) := by
  constructor
  · intro e
    rfl
  · intro hdl
    obtain ⟨datas, hdatas⟩ :=
      mapM_ok_of_forall_ok download (requestedNames matchesAllow hot old force) hdl
    refine ⟨{ downloaded := requestedNames matchesAllow hot old force,
              parseOutcomes := datas.map parse, savedManifest := hot }, ?_, rfl, rfl,
            datas, hdatas, rfl⟩
    unfold updateAssetsModel
    simp only [bind, Except.bind]
    rw [hdatas]
    rfl

/-- Witness for C8 at concrete inputs: both bundles of the batch fail to
parse, yet the call returns successfully, both failures are recorded, and
the fresh manifest is the one saved. -/
theorem updateAssets_failure_isolation_witness :
    ∃ r, updateAssetsModel (fun _ => true)
          (Except.ok [⟨"a.ab", "h1"⟩, ⟨"b.ab", "h2"⟩]) none false
          (fun n => Except.ok [n.length])
          (fun _ => Except.error "corrupt bundle") = Except.ok r ∧
      r.savedManifest = [⟨"a.ab", "h1"⟩, ⟨"b.ab", "h2"⟩] ∧
      r.downloaded = ["a.ab", "b.ab"] ∧
      ∃ datas, (requestedNames (fun _ => true) [⟨"a.ab", "h1"⟩, ⟨"b.ab", "h2"⟩] none false).mapM
            (fun n : String => Except.ok (ε := String) [n.length]) = Except.ok datas ∧
        r.parseOutcomes = datas.map (fun _ => Except.error "corrupt bundle") := by
  obtain ⟨r, h1, h2, h3, h4⟩ :=
    (updateAssets_failure_isolation (fun _ => true) [⟨"a.ab", "h1"⟩, ⟨"b.ab", "h2"⟩] none false
      (fun n => Except.ok [n.length]) (fun _ => Except.error "corrupt bundle")).2
      (fun n _ => ⟨[n.length], rfl⟩)
  exact ⟨r, h1, h2, h3, h4⟩

/-- C8 counterexample: with a perfectly healthy manifest fetch, a failure of
one bundle *download* (raised inside `asyncio.gather`, outside the
per-bundle `try/except`) propagates out of `update_assets` — so manifest
retrieval is not the only failure that makes the call raise, and the
manifest is not written in that case. -/
theorem updateAssets_download_failure_raises :
    updateAssetsModel (fun _ => true) (Except.ok [⟨"a.ab", "h1"⟩]) none false
        (fun _ => Except.error "download failed")
        (fun b => Except.ok [("x", b)]) =
      Except.error "download failed" := by
  rfl

/-! ## `calculate_trust_level` (assets/base.py:151-155, gamedata.py:230-234)

`bisect.bisect_left(key_frames, trust)` from the Python standard library:
`lo, hi = 0, len(a)`; while `lo < hi`: `mid = (lo+hi)//2`;
if `a[mid] < x`: `lo = mid+1` else `hi = mid`; return `lo`. -/

/-- The loop of `bisect.bisect_left` (2-argument form, `lo=0`, `hi=len`). -/
def bisectLoop (a : List Int) (x : Int) (lo hi : Nat) : Nat :=
  if _h : lo < hi then
    let mid := (lo + hi) / 2
    if a.getD mid 0 < x then bisectLoop a x (mid + 1) hi
    else bisectLoop a x lo mid
  else lo
termination_by hi - lo
decreasing_by
  · omega
  · omega

/-- `bisect.bisect_left(a, x)`. -/
def bisectLeft (a : List Int) (x : Int) : Nat :=
  bisectLoop a x 0 a.length

/-- One record of `favor_table["favor_frames"]`. -/
structure FavorData where
  favor_point : Int
deriving DecidableEq, Repr

/-- One frame of the favor table; `calculate_trust_level` reads
`frame["data"]["favor_point"]`. -/
structure FavorFrame where
  data : FavorData
deriving DecidableEq, Repr

/-- `calculate_trust_level(trust)`:
`key_frames = [frame["data"]["favor_point"] for frame in frames]` followed
by `bisect.bisect_left(key_frames, trust)`. -/
def calculateTrustLevel (frames : List FavorFrame) (trust : Int) : Nat :=
  bisectLeft (frames.map (fun f => f.data.favor_point)) trust

theorem bisectLoop_eq_countP (a : List Int) (x : Int) (lo hi : Nat)
    (h1 : lo ≤ hi) (h2 : hi ≤ a.length)
    (hlow : ∀ i (h : i < a.length), i < lo → a[i] < x)
    (hhigh : ∀ i (h : i < a.length), hi ≤ i → x ≤ a[i])
    (hs : List.Pairwise (· ≤ ·) a) :
    bisectLoop a x lo hi = a.countP (fun y => decide (y < x)) := by
  rw [bisectLoop]
  split
  · next hlt =>
    have hmidlt : (lo + hi) / 2 < a.length := by omega
    have hgetD : a.getD ((lo + hi) / 2) 0 = a[(lo + hi) / 2] := by
      rw [List.getD_eq_getElem?_getD, List.getElem?_eq_getElem hmidlt]
      rfl
    show (if a.getD ((lo + hi) / 2) 0 < x then bisectLoop a x ((lo + hi) / 2 + 1) hi
          else bisectLoop a x lo ((lo + hi) / 2)) = a.countP (fun y => decide (y < x))
    rw [hgetD]
    split
    · next hmid =>
      refine bisectLoop_eq_countP a x ((lo + hi) / 2 + 1) hi (by omega) h2 ?_ hhigh hs
      intro i h hi2
      rcases Nat.lt_or_ge i ((lo + hi) / 2) with hcase | hcase
      · exact lt_of_le_of_lt (List.pairwise_iff_getElem.1 hs i ((lo + hi) / 2) h hmidlt hcase) hmid
      · have hieq : i = (lo + hi) / 2 := by omega
        subst hieq
        exact hmid
    · next hmid =>
      refine bisectLoop_eq_countP a x lo ((lo + hi) / 2) (by omega) (by omega) hlow ?_ hs
      intro i h hi2
      rcases Nat.lt_or_ge ((lo + hi) / 2) i with hcase | hcase
      · exact le_trans (not_lt.1 hmid)
          (List.pairwise_iff_getElem.1 hs ((lo + hi) / 2) i hmidlt h hcase)
      · have hieq : i = (lo + hi) / 2 := by omega
        subst hieq
        exact not_lt.1 hmid
  · next hge =>
    have hlohi : lo = hi := by omega
    subst hlohi
    conv_rhs => rw [← List.take_append_drop lo a]
    rw [List.countP_append]
    have htake : (a.take lo).countP (fun y => decide (y < x)) = (a.take lo).length := by
      rw [List.countP_eq_length]
      intro y hy
      obtain ⟨i, hilen, hig⟩ := List.mem_iff_getElem.1 hy
      have hi1 : i < a.length := by
        have hl := hilen
        simp only [List.length_take] at hl
        omega
      have hi2 : i < lo := by
        have hl := hilen
        simp only [List.length_take] at hl
        omega
      rw [List.getElem_take] at hig
      subst hig
      simpa using hlow i hi1 hi2
    have hdrop : (a.drop lo).countP (fun y => decide (y < x)) = 0 := by
      rw [List.countP_eq_zero]
      intro y hy
      obtain ⟨i, hilen, hig⟩ := List.mem_iff_getElem.1 hy
      have hi1 : lo + i < a.length := by
        have hl := hilen
        simp only [List.length_drop] at hl
        omega
      rw [List.getElem_drop] at hig
      subst hig
      simpa using hhigh (lo + i) hi1 (by omega)
    rw [htake, hdrop, List.length_take]
    omega
termination_by hi - lo
decreasing_by
  · omega
  · omega

/-- For a sorted threshold list, `bisect_left` computes the leftmost
insertion point: the number of thresholds strictly below the probe. -/
theorem bisectLeft_eq_countP (a : List Int) (x : Int) (hs : List.Pairwise (· ≤ ·) a) :
    bisectLeft a x = a.countP (fun y => decide (y < x)) := by
  refine bisectLoop_eq_countP a x 0 a.length (Nat.zero_le _) le_rfl ?_ ?_ hs
  · intro i h hi
    omega
  · intro i h hi
    omega

/-- C3 counterexample: on the threshold sequence `[0, 100, 500]` the code
returns `2` at trust `500` — the leftmost insertion point — and not `3` as
the claim's example states. -/
theorem calculateTrustLevel_500_counterexample :
    calculateTrustLevel [⟨⟨0⟩⟩, ⟨⟨100⟩⟩, ⟨⟨500⟩⟩] 500 = 2 ∧
    calculateTrustLevel [⟨⟨0⟩⟩, ⟨⟨100⟩⟩, ⟨⟨500⟩⟩] 500 ≠ 3 := by
  have h : calculateTrustLevel [⟨⟨0⟩⟩, ⟨⟨100⟩⟩, ⟨⟨500⟩⟩] 500 = 2 := by
    unfold calculateTrustLevel
    rw [bisectLeft_eq_countP _ _ (by decide)]
    decide
  exact ⟨h, by rw [h]; decide⟩

/-- C3 (amended): `calculate_trust_level(trust)` returns the leftmost
insertion point of `trust` in the ascending `favor_point` threshold
sequence of the favor table — the number of thresholds strictly below
`trust` — and for the threshold sequence `[0, 100, 500]` it returns `0`
for trust `0`, `1` for trust `99`, and `2` (not `3`) for trust `500`. -/
theorem calculateTrustLevel_spec :
    (∀ (frames : List FavorFrame) (trust : Int),
        List.Pairwise (· ≤ ·) (frames.map (fun f => f.data.favor_point)) →
        calculateTrustLevel frames trust =
          (frames.map (fun f => f.data.favor_point)).countP (fun y => decide (y < trust))) ∧
    calculateTrustLevel [⟨⟨0⟩⟩, ⟨⟨100⟩⟩, ⟨⟨500⟩⟩] 0 = 0 ∧
    calculateTrustLevel [⟨⟨0⟩⟩, ⟨⟨100⟩⟩, ⟨⟨500⟩⟩] 99 = 1 ∧
    calculateTrustLevel [⟨⟨0⟩⟩, ⟨⟨100⟩⟩, ⟨⟨500⟩⟩] 500 = 2 := by
  have hgen : ∀ (frames : List FavorFrame) (trust : Int),
      List.Pairwise (· ≤ ·) (frames.map (fun f => f.data.favor_point)) →
      calculateTrustLevel frames trust =
        (frames.map (fun f => f.data.favor_point)).countP (fun y => decide (y < trust)) := by
    intro frames trust hs
    unfold calculateTrustLevel
    exact bisectLeft_eq_countP _ _ hs
  refine ⟨hgen, ?_, ?_, ?_⟩
  · rw [hgen _ _ (by decide)]
    decide
  · rw [hgen _ _ (by decide)]
    decide
  · rw [hgen _ _ (by decide)]
    decide

/-- Witness for C3's amended statement at the concrete favor table with
thresholds `[0, 100, 500]` and trust `250`: the sortedness hypothesis is
discharged by evaluation and the tier is `2`. -/
theorem calculateTrustLevel_spec_witness :
    calculateTrustLevel [⟨⟨0⟩⟩, ⟨⟨100⟩⟩, ⟨⟨500⟩⟩] 250 = 2 := by
  rw [calculateTrustLevel_spec.1 [⟨⟨0⟩⟩, ⟨⟨100⟩⟩, ⟨⟨500⟩⟩] 250 (by decide)]
  decide

/-! ## Container unpacker: `unzip_only_file` (bundle.py:47-53)

A zip archive is modelled as the list the `zipfile` library exposes: its
members in `namelist()` order, each a `(member name, member bytes)` pair.
`archive.read(archive.namelist()[0])` reads the member at index 0; on an
empty archive the `[0]` subscript raises `IndexError`. -/

/-- `unzip_only_file`: read the member at `namelist()[0]`; `none` models the
`IndexError` raised on an empty archive. -/
def unzipOnlyFile (entries : List (String × List Nat)) : Option (List Nat) :=
  match entries with
  | [] => none
  | f :: _ => some f.2

/-- C5 counterexample: an archive with two members does not fail — the
function silently returns the bytes of the first member. -/
theorem unzipOnlyFile_two_members_counterexample :
    unzipOnlyFile [("a.ab", [1, 2]), ("extra.ab", [3])] = some [1, 2] ∧
    unzipOnlyFile [("a.ab", [1, 2]), ("extra.ab", [3])] ≠ none := by
  decide

/-- C5 (amended): `unzip_only_file` returns the bytes of the *first* member
of the archive; it fails (with `IndexError`, not `CorruptArchiveError`)
only when the archive contains zero members — an archive with more than
one member is not rejected. -/
theorem unzipOnlyFile_spec (entries : List (String × List Nat)) :
    (entries = [] → unzipOnlyFile entries = none) ∧
    (∀ f rest, entries = f :: rest → unzipOnlyFile entries = some f.2) := by
  constructor
  · rintro rfl
    rfl
  · rintro f rest rfl
    rfl

/-- Witness for C5's amended statement: the empty archive fails and a
singleton archive yields its only member's bytes. -/
theorem unzipOnlyFile_spec_witness :
    unzipOnlyFile [] = none ∧ unzipOnlyFile [("a.ab", [7])] = some [7] :=
  ⟨(unzipOnlyFile_spec []).1 rfl,
   (unzipOnlyFile_spec [("a.ab", [7])]).2 ("a.ab", [7]) [] rfl⟩

/-! ## AES text decryption: `decrypt_aes_text` (bundle.py:77-92)

The embedding keeps the code of `decrypt_aes_text` explicit — the 128-byte
RSA-header skip, the fixed mask constant, the XOR-masked IV in the first
16 payload bytes, the CBC chaining and the trailing-byte trim — and
abstracts only the raw AES block permutation of the `Crypto` library: a
parameter `D : List Nat → List Nat` maps one 16-byte ciphertext block to
its plaintext block under the fixed key `mask[:16]`.  `none` models the
exceptions of the library contract: a ciphertext whose length is not a
multiple of the block size, a payload too short to hold the IV, and the
`IndexError` of `decrypted_padded[-1]` on an empty decryption. -/

/-- `bytes.fromhex("554954704169383270484157776e7a7148524d4377506f6e4a4c49423357436c")`. -/
def mask : List Nat :=
  [0x55, 0x49, 0x54, 0x70, 0x41, 0x69, 0x38, 0x32,
   0x70, 0x48, 0x41, 0x57, 0x77, 0x6e, 0x7a, 0x71,
   0x48, 0x52, 0x4d, 0x43, 0x77, 0x50, 0x6f, 0x6e,
   0x4a, 0x4c, 0x49, 0x42, 0x33, 0x57, 0x43, 0x6c]

/-- Byte-wise XOR, truncating to the shorter argument, as
`bytearray(b ^ m for b, m in zip(data, mask))` does. -/
def xorBytes (a b : List Nat) : List Nat :=
  List.zipWith Nat.xor a b

/-- Split a byte string into consecutive 16-byte blocks (the last block may
be shorter when the length is not a multiple of 16); the fuel argument,
instantiated with the length, makes the recursion structural. -/
def chunks16Go : Nat → List Nat → List (List Nat)
  | 0, _ => []
  | _ + 1, [] => []
  | f + 1, l => l.take 16 :: chunks16Go f (l.drop 16)

/-- Split a byte string into consecutive 16-byte blocks. -/
def chunks16 (l : List Nat) : List (List Nat) :=
  chunks16Go l.length l

/-- CBC-mode decryption over an abstract block decryption `D`:
each plaintext block is `D(cᵢ) XOR cᵢ₋₁`, seeded with the IV. -/
def cbcDecryptBlocks (D : List Nat → List Nat) (prev : List Nat) :
    List (List Nat) → List (List Nat)
  | [] => []
  | c :: cs => xorBytes (D c) prev :: cbcDecryptBlocks D c cs

/-- CBC-mode encryption over an abstract block encryption `E`:
each ciphertext block is `E(pᵢ XOR cᵢ₋₁)`, seeded with the IV. -/
def cbcEncryptBlocks (E : List Nat → List Nat) (prev : List Nat) :
    List (List Nat) → List (List Nat)
  | [] => []
  | p :: ps =>
    let c := E (xorBytes p prev)
    c :: cbcEncryptBlocks E c ps

/-- The Python trim `decrypted_padded[: -decrypted_padded[-1]]`: for a
count `n > 0` it drops the `n` trailing bytes; for `n = 0` the slice is
`[:0]`, the empty byte string. -/
def pyTrim (l : List Nat) (n : Nat) : List Nat :=
  if n = 0 then [] else l.take (l.length - n)

/-- The full CBC-decrypted payload of `decrypt_aes_text` before the trim:
`aes.decrypt(data[16:])` with the IV derived from the first 16 payload
bytes XOR `mask[16:]` (after the optional 128-byte RSA-header skip). -/
def decryptAesTextPlain (D : List Nat → List Nat) (data : List Nat) (rsa : Bool) : List Nat :=
  (cbcDecryptBlocks D
    (xorBytes ((if rsa then data.drop 128 else data).take 16) (mask.drop 16))
    (chunks16 ((if rsa then data.drop 128 else data).drop 16))).flatten

/-- `decrypt_aes_text(data, rsa=...)`: skip the RSA header when asked,
derive the IV, CBC-decrypt the remainder and trim the number of trailing
bytes indicated by the last decrypted byte. -/
def decryptAesText (D : List Nat → List Nat) (data : List Nat) (rsa : Bool) :
    Option (List Nat) :=
  if 16 ≤ (if rsa then data.drop 128 else data).length ∧
      ((if rsa then data.drop 128 else data).length - 16) % 16 = 0 then
    match (decryptAesTextPlain D data rsa).getLast? with
    | some lastByte => some (pyTrim (decryptAesTextPlain D data rsa) lastByte)
    | none => none
  else none

/-- PKCS#7 padding consistency of a decrypted payload: the count indicated
by the last byte is between 1 and the length, and all trailing `n` bytes
equal `n`. -/
def pkcsConsistent (l : List Nat) : Bool :=
  match l.getLast? with
  | none => false
  | some n =>
      decide (1 ≤ n) && decide (n ≤ l.length) &&
        (l.drop (l.length - n) == List.replicate n n)

/-- C4 counterexample: a payload whose decrypted padding is inconsistent
(final byte `2`, but the two trailing bytes are `[0, 2]`, not `[2, 2]`)
is not rejected — `decrypt_aes_text` happily returns the trimmed bytes.
The block cipher is instantiated with the identity permutation and the
stored IV bytes equal `mask[16:]`, so the CBC decryption of the single
ciphertext block is the block itself. -/
theorem decryptAesText_padding_counterexample :
    decryptAesTextPlain (fun b => b) (mask.drop 16 ++ (List.replicate 15 0 ++ [2])) false =
        List.replicate 15 0 ++ [2] ∧
    pkcsConsistent (List.replicate 15 0 ++ [2]) = false ∧
    decryptAesText (fun b => b) (mask.drop 16 ++ (List.replicate 15 0 ++ [2])) false =
        some (List.replicate 14 0) := by
  decide

/-- C4 (amended): `decrypt_aes_text` removes PKCS-style padding by trimming
the number of trailing bytes indicated by the last decrypted byte, but it
never validates the padding: for every well-formed input with a nonempty
decryption it returns the trimmed value — also when the trailing bytes do
not all equal the pad-count byte.  No `DecryptionError` is raised (no such
exception exists in the code base). -/
theorem decryptAesText_trims_without_check (D : List Nat → List Nat)
    (data : List Nat) (rsa : Bool)
    (hlen : 16 ≤ (if rsa then data.drop 128 else data).length)
    (hmod : ((if rsa then data.drop 128 else data).length - 16) % 16 = 0)
    (hne : decryptAesTextPlain D data rsa ≠ []) :
    decryptAesText D data rsa =
      some (pyTrim (decryptAesTextPlain D data rsa)
        ((decryptAesTextPlain D data rsa).getLastD 0)) := by
  unfold decryptAesText
  rw [if_pos ⟨hlen, hmod⟩]
  obtain ⟨y, hy⟩ := Option.isSome_iff_exists.1 (List.getLast?_isSome.2 hne)
  rw [hy]
  rw [List.getLastD_eq_getLast?, hy]
  rfl

/-- Witness for C4's amended statement: a concrete payload with
inconsistent padding (final byte `3`, trailing bytes `[0, 0, 3]`) is
still trimmed and returned. -/
theorem decryptAesText_trims_without_check_witness :
    decryptAesText (fun b => b) (mask.drop 16 ++ (List.replicate 15 0 ++ [3])) false =
      some (List.replicate 13 0) := by
  rw [decryptAesText_trims_without_check (fun b => b)
    (mask.drop 16 ++ (List.replicate 15 0 ++ [3])) false
    (by decide) (by decide) (by decide)]
  decide

/-- C10: whenever the final CBC-decrypted byte is `0`, the Python slice
`decrypted_padded[: -decrypted_padded[-1]]` is `[:0]` — the whole decrypted
payload is discarded and `decrypt_aes_text` returns the empty byte string,
rather than removing zero bytes. -/
theorem decryptAesText_zero_pad (D : List Nat → List Nat)
    (data : List Nat) (rsa : Bool)
    (hlen : 16 ≤ (if rsa then data.drop 128 else data).length)
    (hmod : ((if rsa then data.drop 128 else data).length - 16) % 16 = 0)
    (hzero : (decryptAesTextPlain D data rsa).getLast? = some 0) :
    decryptAesText D data rsa = some [] := by
  unfold decryptAesText
  rw [if_pos ⟨hlen, hmod⟩, hzero]
  rfl

/-- Witness for C10: a payload that decrypts (identity block cipher,
zero IV) to sixteen zero bytes — final byte `0` — yields the empty byte
string, not the 16 decrypted bytes. -/
theorem decryptAesText_zero_pad_witness :
    decryptAesText (fun b => b) (mask.drop 16 ++ List.replicate 16 0) false = some [] := by
  exact decryptAesText_zero_pad (fun b => b) (mask.drop 16 ++ List.replicate 16 0) false
    (by decide) (by decide) (by decide)

/-! ## The AES round-trip (spec §8)

The spec posits an encryption inverse and the round-trip law
`decrypt_aes(encrypt_aes(plaintext, key_material)) == plaintext`. -/

theorem length_xorBytes (a b : List Nat) :
    (xorBytes a b).length = min a.length b.length := by
  unfold xorBytes
  exact List.length_zipWith _ _ _

theorem xorBytes_cancel : ∀ p m : List Nat, p.length ≤ m.length →
    xorBytes (xorBytes p m) m = p
  | [], _, _ => rfl
  | a :: as, [], h => by simp at h
  | a :: as, b :: bs, h => by
    show ((a ^^^ b) ^^^ b) :: xorBytes (xorBytes as bs) bs = a :: as
    rw [Nat.xor_assoc, Nat.xor_self, Nat.xor_zero,
      xorBytes_cancel as bs (by simpa using Nat.le_of_succ_le_succ h)]

theorem chunks16Go_nil (fuel : Nat) : chunks16Go fuel [] = [] := by
  cases fuel <;> rfl

theorem chunks16Go_flatten : ∀ (bs : List (List Nat)) (fuel : Nat),
    (∀ b ∈ bs, b.length = 16) → bs.flatten.length ≤ fuel →
    chunks16Go fuel bs.flatten = bs
  | [], fuel, _, _ => chunks16Go_nil fuel
  | b :: rest, fuel, h16, hlen => by
    have hb : b.length = 16 := h16 b (List.mem_cons_self b rest)
    cases fuel with
    | zero =>
      exfalso
      have h1 : ((b :: rest).flatten).length = b.length + rest.flatten.length := by
        show (b ++ rest.flatten).length = b.length + rest.flatten.length
        simp
      omega
    | succ f =>
      cases b with
      | nil => simp at hb
      | cons x xs =>
        show chunks16Go (f + 1) ((x :: xs) ++ rest.flatten) = (x :: xs) :: rest
        have hne : (x :: xs) ++ rest.flatten = x :: (xs ++ rest.flatten) := rfl
        rw [hne]
        show ((x :: (xs ++ rest.flatten)).take 16) ::
            chunks16Go f ((x :: (xs ++ rest.flatten)).drop 16) = (x :: xs) :: rest
        rw [← hne, List.take_left' hb, List.drop_left' hb]
        congr 1
        refine chunks16Go_flatten rest f (fun c hc => h16 c (List.mem_cons_of_mem _ hc)) ?_
        have h1 : (((x :: xs) :: rest).flatten).length = 16 + rest.flatten.length := by
          show ((x :: xs) ++ rest.flatten).length = 16 + rest.flatten.length
          rw [List.length_append, hb]
        omega

theorem flatten_chunks16Go : ∀ (fuel : Nat) (l : List Nat), l.length ≤ fuel →
    (chunks16Go fuel l).flatten = l
  | 0, l, h => by
    have hl : l = [] := List.eq_nil_of_length_eq_zero (by omega)
    subst hl
    rfl
  | f + 1, [], _ => rfl
  | f + 1, x :: xs, h => by
    show ((x :: xs).take 16) ++ (chunks16Go f ((x :: xs).drop 16)).flatten = x :: xs
    rw [flatten_chunks16Go f ((x :: xs).drop 16)
      (by simp only [List.length_drop, List.length_cons] at h ⊢; omega)]
    exact List.take_append_drop 16 (x :: xs)

theorem chunks16_blocks_length : ∀ (fuel : Nat) (l : List Nat), l.length ≤ fuel →
    l.length % 16 = 0 → ∀ b ∈ chunks16Go fuel l, b.length = 16
  | 0, l, _, _, b, hb => by simp [chunks16Go] at hb
  | f + 1, [], _, _, b, hb => by simp [chunks16Go] at hb
  | f + 1, x :: xs, hf, hmod, b, hb => by
    simp only [List.length_cons] at hf hmod
    have hb2 : b ∈ ((x :: xs).take 16) :: chunks16Go f ((x :: xs).drop 16) := hb
    rcases List.mem_cons.1 hb2 with rfl | hb3
    · simp only [List.length_take, List.length_cons]
      omega
    · refine chunks16_blocks_length f ((x :: xs).drop 16)
        (by simp only [List.length_drop, List.length_cons]; omega) ?_ b hb3
      simp only [List.length_drop, List.length_cons]
      omega

theorem flatten_length_of_blocks : ∀ bs : List (List Nat),
    (∀ b ∈ bs, b.length = 16) → bs.flatten.length = 16 * bs.length
  | [], _ => rfl
  | b :: rest, h16 => by
    show (b ++ rest.flatten).length = 16 * (rest.length + 1)
    rw [List.length_append, h16 b (List.mem_cons_self b rest),
      flatten_length_of_blocks rest (fun c hc => h16 c (List.mem_cons_of_mem _ hc))]
    ring

theorem cbcEncryptBlocks_length (E : List Nat → List Nat)
    (hElen : ∀ b, b.length = 16 → (E b).length = 16) :
    ∀ (ps : List (List Nat)) (prev : List Nat), prev.length = 16 →
      (∀ p ∈ ps, p.length = 16) → ∀ c ∈ cbcEncryptBlocks E prev ps, c.length = 16
  | [], _, _, _, c, hc => by simp [cbcEncryptBlocks] at hc
  | p :: ps, prev, hprev, h16, c, hc => by
    have hxl : (xorBytes p prev).length = 16 := by
      rw [length_xorBytes, h16 p (List.mem_cons_self p ps), hprev]
      decide
    have hEl : (E (xorBytes p prev)).length = 16 := hElen _ hxl
    have hc2 : c ∈ E (xorBytes p prev) ::
        cbcEncryptBlocks E (E (xorBytes p prev)) ps := hc
    rcases List.mem_cons.1 hc2 with rfl | hc3
    · exact hEl
    · exact cbcEncryptBlocks_length E hElen ps _ hEl
        (fun q hq => h16 q (List.mem_cons_of_mem _ hq)) c hc3

theorem cbcDecrypt_cbcEncrypt (E D : List Nat → List Nat)
    (hED : ∀ b, b.length = 16 → D (E b) = b)
    (hElen : ∀ b, b.length = 16 → (E b).length = 16) :
    ∀ (ps : List (List Nat)) (prev : List Nat), prev.length = 16 →
      (∀ p ∈ ps, p.length = 16) →
      cbcDecryptBlocks D prev (cbcEncryptBlocks E prev ps) = ps
  | [], _, _, _ => rfl
  | p :: ps, prev, hprev, h16 => by
    have hp : p.length = 16 := h16 p (List.mem_cons_self p ps)
    have hxl : (xorBytes p prev).length = 16 := by
      rw [length_xorBytes, hp, hprev]
      decide
    show xorBytes (D (E (xorBytes p prev))) prev ::
        cbcDecryptBlocks D (E (xorBytes p prev))
          (cbcEncryptBlocks E (E (xorBytes p prev)) ps) = p :: ps
    rw [hED _ hxl, xorBytes_cancel p prev (by omega)]
    congr 1
    exact cbcDecrypt_cbcEncrypt E D hED hElen ps (E (xorBytes p prev)) (hElen _ hxl)
      (fun q hq => h16 q (List.mem_cons_of_mem _ hq))

/-- Modelled from the spec: the repository contains only the decryption
direction, so the encryption inverse `encrypt_aes(plaintext, key_material)`
posited by the spec's round-trip property is built from the spec's words —
PKCS padding to the 16-byte block size, CBC encryption over the abstract
block encryption `E` (the AES permutation under the fixed key `mask[:16]`),
and the IV stored XOR-masked with `mask[16:]` in the first 16 output
bytes. -/
def encryptAes (E : List Nat → List Nat) (iv : List Nat) (pt : List Nat) : List Nat :=
  xorBytes iv (mask.drop 16) ++
    (cbcEncryptBlocks E iv
      (chunks16 (pt ++ List.replicate (16 - pt.length % 16) (16 - pt.length % 16)))).flatten

theorem chunks16_flatten (bs : List (List Nat)) (h16 : ∀ b ∈ bs, b.length = 16) :
    chunks16 bs.flatten = bs :=
  chunks16Go_flatten bs bs.flatten.length h16 le_rfl

theorem flatten_chunks16 (l : List Nat) : (chunks16 l).flatten = l :=
  flatten_chunks16Go l.length l le_rfl

theorem decryptAesText_false_eval (D : List Nat → List Nat) (data : List Nat)
    (h1 : 16 ≤ data.length) (h2 : (data.length - 16) % 16 = 0)
    (dec : List Nat) (n : Nat)
    (hplain : decryptAesTextPlain D data false = dec)
    (hlast : dec.getLast? = some n) :
    decryptAesText D data false = some (pyTrim dec n) := by
  show (if 16 ≤ data.length ∧ (data.length - 16) % 16 = 0 then
      match (decryptAesTextPlain D data false).getLast? with
      | some lastByte => some (pyTrim (decryptAesTextPlain D data false) lastByte)
      | none => none
    else none) = some (pyTrim dec n)
  rw [if_pos (And.intro h1 h2), hplain, hlast]

/-- C7: the AES round-trip.  For every block encryption/decryption pair
that are mutually inverse on 16-byte blocks, every 16-byte IV and every
plaintext byte string: encrypting (PKCS padding, CBC chaining, IV stored
XOR-masked with `mask[16:]` in the first 16 payload bytes) and then
applying `decrypt_aes_text` with `rsa=False` returns the original
plaintext. -/
theorem decryptAes_encryptAes_roundtrip (E D : List Nat → List Nat)
    (hED : ∀ b, b.length = 16 → D (E b) = b)
    (hElen : ∀ b, b.length = 16 → (E b).length = 16)
    (iv : List Nat) (hiv : iv.length = 16) (pt : List Nat) :
    decryptAesText D (encryptAes E iv pt) false = some pt := by
  have hmask16 : (mask.drop 16).length = 16 := by decide
  unfold encryptAes
  set padN := 16 - pt.length % 16 with hpadN
  set padded := pt ++ List.replicate padN padN with hpadded
  set blocks := chunks16 padded with hblocksdef
  set encB := cbcEncryptBlocks E iv blocks with hencBdef
  set stored := xorBytes iv (mask.drop 16) with hstoreddef
  have hpad1 : 1 ≤ padN := by
    rw [hpadN]
    omega
  have hstored : stored.length = 16 := by
    rw [hstoreddef, length_xorBytes, hiv, hmask16]
    decide
  have hpadlen : padded.length = pt.length + padN := by
    rw [hpadded, List.length_append, List.length_replicate]
  have hpadmod : padded.length % 16 = 0 := by
    rw [hpadlen, hpadN]
    omega
  have hblocks16 : ∀ b ∈ blocks, b.length = 16 := by
    rw [hblocksdef]
    exact chunks16_blocks_length padded.length padded le_rfl hpadmod
  have hencB16 : ∀ c ∈ encB, c.length = 16 := by
    rw [hencBdef]
    exact cbcEncryptBlocks_length E hElen blocks iv hiv hblocks16
  have hctmod : encB.flatten.length % 16 = 0 := by
    rw [flatten_length_of_blocks encB hencB16]
    omega
  have hdlen : (stored ++ encB.flatten).length = 16 + encB.flatten.length := by
    rw [List.length_append, hstored]
  have hplain : decryptAesTextPlain D (stored ++ encB.flatten) false = padded := by
    show (cbcDecryptBlocks D
        (xorBytes ((stored ++ encB.flatten).take 16) (mask.drop 16))
        (chunks16 ((stored ++ encB.flatten).drop 16))).flatten = padded
    rw [List.take_left' hstored, List.drop_left' hstored, hstoreddef,
      xorBytes_cancel iv (mask.drop 16) (by simp [hiv, hmask16]),
      chunks16_flatten encB hencB16, hencBdef,
      cbcDecrypt_cbcEncrypt E D hED hElen blocks iv hiv hblocks16, hblocksdef,
      flatten_chunks16 padded]
  have hlast : padded.getLast? = some padN := by
    rw [hpadded, List.getLast?_append, List.getLast?_replicate, if_neg (by omega)]
    rfl
  rw [decryptAesText_false_eval D (stored ++ encB.flatten) (by omega) (by omega)
    padded padN hplain hlast]
  have htrim : pyTrim padded padN = pt := by
    unfold pyTrim
    rw [if_neg (by omega), hpadlen, Nat.add_sub_cancel, hpadded, List.take_left' rfl]
  rw [htrim]

/-- Witness for C7 with the identity block permutation, a concrete IV and
the plaintext `[1, 2, 3]`. -/
theorem decryptAes_encryptAes_roundtrip_witness :
    decryptAesText (fun b => b) (encryptAes (fun b => b) (List.replicate 16 7) [1, 2, 3]) false =
      some [1, 2, 3] :=
  decryptAes_encryptAes_roundtrip (fun b => b) (fun b => b)
    (fun _ _ => rfl) (fun _ h => h) (List.replicate 16 7) (by decide) [1, 2, 3]

/-! ## `recursively_collapse_keys` (bundle.py:152-165)

JSON values as the Python `json` module produces them, except that a
Python dict is an association list (insertion order, keys unique) whose
keys may be arbitrary hashable values — after a collapse the keys of the
produced dict are whatever the `"key"` fields held, so object keys are
modelled as full JSON values. -/

/-- A JSON value / Python object tree. -/
inductive J where
  | null : J
  | bool : Bool → J
  | num : Int → J
  | str : String → J
  | arr : List J → J
  | obj : List (J × J) → J

mutual

/-- Structural equality of JSON values (Python `==` on these trees). -/
def beqJ : J → J → Bool
  | .null, .null => true
  | .bool a, .bool b => a == b
  | .num a, .num b => a == b
  | .str a, .str b => a == b
  | .arr xs, .arr ys => beqJList xs ys
  | .obj xs, .obj ys => beqJKVList xs ys
  | _, _ => false

/-- `beqJ` on lists of values. -/
def beqJList : List J → List J → Bool
  | [], [] => true
  | x :: xs, y :: ys => beqJ x y && beqJList xs ys
  | _, _ => false

/-- `beqJ` on lists of key-value pairs. -/
def beqJKVList : List (J × J) → List (J × J) → Bool
  | [], [] => true
  | (k1, v1) :: xs, (k2, v2) :: ys => beqJ k1 k2 && beqJ v1 v2 && beqJKVList xs ys
  | _, _ => false

end

instance : BEq J := ⟨beqJ⟩

/-- `isinstance(item, dict) and item.keys() == {"key", "value"}`: a
two-entry dict whose keys are exactly the strings `"key"` and `"value"`
(in either insertion order). -/
def isKVb : J → Bool
  | .obj [(.str a, _), (.str b, _)] =>
      (a == "key" && b == "value") || (a == "value" && b == "key")
  | _ => false

/-- Insert-or-overwrite into a Python dict: an existing key keeps its
position and gets the new value, a new key is appended. -/
def updateAssoc : List (J × J) → J → J → List (J × J)
  | [], k, v => [(k, v)]
  | (k0, v0) :: rest, k, v =>
      if k0 == k then (k0, v) :: rest else (k0, v0) :: updateAssoc rest k v

/-- Build a Python dict from the `(key, value)` pairs in order — the
semantics of the comprehension `{item["key"]: ... for item in obj}`. -/
def dedupKeys (l : List (J × J)) : List (J × J) :=
  l.foldl (fun m kv => updateAssoc m kv.1 kv.2) []

mutual

/-- `recursively_collapse_keys(obj)`: a list whose items are all
`{"key", "value"}` dicts becomes the dict `{item["key"]:
recursively_collapse_keys(item["value"])}` (note `all([]) == True`: the
empty list becomes the empty dict); any other list is mapped over; a dict
has its values collapsed; everything else is returned unchanged. -/
def collapse : J → J
  | .arr items =>
      if items.all isKVb then J.obj (dedupKeys (collapseKVs items))
      else J.arr (collapseList items)
  | .obj fields => J.obj (collapseFields fields)
  | v => v

/-- The list branch of `recursively_collapse_keys`. -/
def collapseList : List J → List J
  | [] => []
  | i :: is => collapse i :: collapseList is

/-- The `{item["key"]: recursively_collapse_keys(item["value"])}` pairs of
the all-`{key, value}` branch; the fallback line is unreachable under the
`all` guard. -/
def collapseKVs : List J → List (J × J)
  | [] => []
  | (J.obj [(J.str a, v1), (_, v2)]) :: is =>
      (if a == "key" then (v1, collapse v2) else (v2, collapse v1)) :: collapseKVs is
  | _ :: is => (J.null, J.null) :: collapseKVs is

/-- The dict branch of `recursively_collapse_keys`: values collapsed,
keys untouched. -/
def collapseFields : List (J × J) → List (J × J)
  | [] => []
  | kv :: fs => (kv.1, collapse kv.2) :: collapseFields fs

end

mutual

/-- No subvalue is a list whose items are all `{"key", "value"}` dicts —
the "already in key→value object form" condition of the spec (an empty
array vacuously fails it, since `all([]) == True`). -/
def noKVb : J → Bool
  | .arr items => !(items.all isKVb) && noKVbList items
  | .obj fields => noKVbFields fields
  | _ => true

/-- `noKVb` over the items of a list. -/
def noKVbList : List J → Bool
  | [] => true
  | i :: is => noKVb i && noKVbList is

/-- `noKVb` over the values of a dict (keys are never collapsed). -/
def noKVbFields : List (J × J) → Bool
  | [] => true
  | kv :: fs => noKVb kv.2 && noKVbFields fs

end

mutual

theorem collapse_noop : ∀ x : J, noKVb x = true → collapse x = x
  | .null, _ => rfl
  | .bool _, _ => rfl
  | .num _, _ => rfl
  | .str _, _ => rfl
  | .arr items, h => by
    have hsplit : (!(items.all isKVb) && noKVbList items) = true := h
    rw [Bool.and_eq_true] at hsplit
    have h1 := hsplit.1
    rw [Bool.not_eq_true'] at h1
    have h2 : noKVbList items = true := hsplit.2
    show (if items.all isKVb then J.obj (dedupKeys (collapseKVs items))
        else J.arr (collapseList items)) = J.arr items
    rw [h1, if_neg Bool.false_ne_true, collapseList_noop items h2]
  | .obj fields, h => by
    show J.obj (collapseFields fields) = J.obj fields
    rw [collapseFields_noop fields h]

theorem collapseList_noop : ∀ l : List J, noKVbList l = true → collapseList l = l
  | [], _ => rfl
  | i :: is, h => by
    have hsplit : (noKVb i && noKVbList is) = true := h
    rw [Bool.and_eq_true] at hsplit
    show collapse i :: collapseList is = i :: is
    rw [collapse_noop i hsplit.1, collapseList_noop is hsplit.2]

theorem collapseFields_noop : ∀ l : List (J × J), noKVbFields l = true → collapseFields l = l
  | [], _ => rfl
  | kv :: fs, h => by
    have hsplit : (noKVb kv.2 && noKVbFields fs) = true := h
    rw [Bool.and_eq_true] at hsplit
    show (kv.1, collapse kv.2) :: collapseFields fs = kv :: fs
    rw [collapse_noop kv.2 hsplit.1, collapseFields_noop fs hsplit.2]

end

/-- C6 counterexample: `recursively_collapse_keys` is not idempotent.  The
input is a singleton list holding a list of two `{key, value}` dicts: one
collapse turns the inner list into the dict `{"key": 1, "value": 2}` —
which is itself `{key, value}`-shaped — so a second collapse collapses the
outer list too, producing `{1: 2}`. -/
theorem collapse_not_idempotent :
    collapse (collapse (J.arr [J.arr [J.obj [(J.str "key", J.str "key"), (J.str "value", J.num 1)],
        J.obj [(J.str "key", J.str "value"), (J.str "value", J.num 2)]]])) ≠
      collapse (J.arr [J.arr [J.obj [(J.str "key", J.str "key"), (J.str "value", J.num 1)],
        J.obj [(J.str "key", J.str "value"), (J.str "value", J.num 2)]]]) := by
  intro h
  have h1 : collapse (J.arr [J.arr [J.obj [(J.str "key", J.str "key"), (J.str "value", J.num 1)],
      J.obj [(J.str "key", J.str "value"), (J.str "value", J.num 2)]]]) =
      J.arr [J.obj [(J.str "key", J.num 1), (J.str "value", J.num 2)]] := rfl
  have h2 : collapse (collapse (J.arr [J.arr [J.obj [(J.str "key", J.str "key"), (J.str "value", J.num 1)],
      J.obj [(J.str "key", J.str "value"), (J.str "value", J.num 2)]]])) =
      J.obj [(J.num 1, J.num 2)] := rfl
  rw [h2, h1] at h
  exact J.noConfusion h

/-- C6 (amended): on every input already in key→value object form —
containing no array whose elements are all objects with exactly the keys
`{key, value}` (so in particular no empty array) — `recursively_collapse_keys`
is a no-op, and hence idempotent there.  Unrestricted idempotence fails:
a collapse can create new `{key, value}`-shaped objects (see the
counterexample). -/
theorem collapse_spec (x : J) (h : noKVb x = true) :
    collapse x = x ∧ collapse (collapse x) = collapse x := by
  have h1 := collapse_noop x h
  rw [h1]
  exact ⟨rfl, h1⟩

/-- Witness for C6's amended statement on a concrete value with nested
arrays and objects, none of them `{key, value}`-shaped. -/
theorem collapse_spec_witness :
    collapse (J.obj [(J.str "a", J.arr [J.num 1, J.str "b"])]) =
        J.obj [(J.str "a", J.arr [J.num 1, J.str "b"])] ∧
    collapse (collapse (J.obj [(J.str "a", J.arr [J.num 1, J.str "b"])])) =
        collapse (J.obj [(J.str "a", J.arr [J.num 1, J.str "b"])]) :=
  collapse_spec (J.obj [(J.str "a", J.arr [J.num 1, J.str "b"])]) rfl

/-! ## `DDict.__getitem__` and `_to_camel_case` (models/base.py:37-39, 100-120)

A `DDict` wraps a Python dict (an association list with unique keys);
`__getitem__` tries the key itself and, on `KeyError`, retries
`_to_camel_case(key)`.  `str.title()` is modelled for the ASCII alphabet:
an alphabetic character is uppercased when the previous character is not
alphabetic and lowercased otherwise. -/

/-- `str.title()` over a character list: `prevAlpha` tracks whether the
previous character was alphabetic. -/
def pyTitleGo : Bool → List Char → List Char
  | _, [] => []
  | prevAlpha, c :: cs =>
      if c.isAlpha then
        (if prevAlpha then c.toLower else c.toUpper) :: pyTitleGo true cs
      else
        c :: pyTitleGo false cs

/-- `str.title()` (ASCII model). -/
def pyTitle (s : String) : String :=
  String.mk (pyTitleGo false s.data)

/-- `str.split("_")`: splits at every underscore, keeping empty components
(`"a__b" → ["a", "", "b"]`, `"" → [""]`). -/
def splitUnderscore : List Char → List (List Char)
  | [] => [[]]
  | c :: cs =>
      if c = '_' then [] :: splitUnderscore cs
      else
        match splitUnderscore cs with
        | [] => [[c]]
        | p :: ps => (c :: p) :: ps

/-- `_to_camel_case(string)`:
`"".join(x.title() if i else x for i, x in enumerate(string.split("_")))`. -/
def toCamelCase (s : String) : String :=
  String.join ((((splitUnderscore s.data).map String.mk).enum).map
    (fun p => if p.1 = 0 then p.2 else pyTitle p.2))

/-- `DDict.__getitem__(key)` restricted to the key lookup: try the key,
and on `KeyError` retry `_to_camel_case(key)`; `none` models the final
`KeyError` (surfaced as `AttributeError` by `__getattr__`). -/
def ddictGetItem {A : Type} (d : List (String × A)) (key : String) : Option A :=
  match List.lookup key d with
  | some v => some v
  | none => List.lookup (toCamelCase key) d

theorem splitUnderscore_no_underscore : ∀ cs : List Char, '_' ∉ cs →
    splitUnderscore cs = [cs]
  | [], _ => rfl
  | c :: cs, h => by
    have hc : ¬(c = '_') := fun he => h (he ▸ List.mem_cons_self c cs)
    show (if c = '_' then [] :: splitUnderscore cs
        else match splitUnderscore cs with
          | [] => [[c]]
          | p :: ps => (c :: p) :: ps) = [c :: cs]
    rw [if_neg hc, splitUnderscore_no_underscore cs (fun hm => h (List.mem_cons_of_mem c hm))]

theorem join_singleton (s : String) : String.join [s] = s := by
  cases s
  rfl

/-- C9 counterexample: the case conversion runs in one direction only.
With `{"camel_key": 1}`, looking up `"camelKey"` fails — `_to_camel_case`
leaves a camelCase key unchanged, so no snake_case variant is ever tried —
while with `{"camelKey": 1}` the snake_case probe `"camel_key"` succeeds. -/
theorem ddictGetItem_counterexample :
    ddictGetItem [("camel_key", (1 : Nat))] "camelKey" = none ∧
    ddictGetItem [("camelKey", (1 : Nat))] "camel_key" = some 1 := by
  constructor
  · rfl
  · rfl

/-- C9 (amended): on a hit `DDict.__getitem__` returns the stored value;
on a miss it retries exactly one case-converted variant, the camelCase
conversion `_to_camel_case(key)` of the key — and that conversion leaves
a key without underscores (in particular any camelCase key) unchanged, so
the snake_case form of a camelCase key is never tried. -/
theorem ddictGetItem_spec {A : Type} (d : List (String × A)) (key : String) :
    (∀ v, List.lookup key d = some v → ddictGetItem d key = some v) ∧
    (List.lookup key d = none →
        ddictGetItem d key = List.lookup (toCamelCase key) d) ∧
    ('_' ∉ key.data → toCamelCase key = key) := by
  refine ⟨?_, ?_, ?_⟩
  · intro v hv
    unfold ddictGetItem
    rw [hv]
  · intro h
    unfold ddictGetItem
    rw [h]
  · intro h
    unfold toCamelCase
    rw [splitUnderscore_no_underscore key.data h]
    show String.join [String.mk key.data] = key
    rw [join_singleton]

/-- Witness for C9's amended statement: a snake_case probe into a
camelCase-keyed dict goes through the conversion and hits, and the
conversion fixes an underscore-free key. -/
theorem ddictGetItem_spec_witness :
    ddictGetItem [("fooBar", (5 : Nat))] "foo_bar" = some 5 ∧
    toCamelCase "itemId" = "itemId" := by
  constructor
  · rw [(ddictGetItem_spec [("fooBar", (5 : Nat))] "foo_bar").2.1 (by rfl)]
    rfl
  · exact (ddictGetItem_spec ([] : List (String × Nat)) "itemId").2.2 (by decide)

end ArkPrts
